import Mathlib

/-!
Verification of the emscripten post-compilation passes of this repository
(`src/wasm-emscripten.cpp`): the inline-host-call rewriter (`AsmConstWalker`),
the dynCall thunk synthesizer (`makeDynCallThunks`), the memory-growth
synthesizer (`generateMemoryGrowthFunction`) and the metadata emitter
(`generateEmscriptenMetadata`).

Modelling conventions:
* C++ `std::string` values (code strings, signatures, names) are `List Char`.
* Machine integers (`int32_t` ids, `Address` keys, `size_t`) are `Nat`:
  every value arising here (ids counted from 0, addresses, sizes) is small and
  non-negative, and no claim involves wraparound.
* `std::map` / `std::unordered_map` are association lists; only lookup,
  insertion, and size are exercised by the code paths under claim (the one
  place where `std::map`'s lexicographic iteration order is observable, the
  metadata loop over `sigsForCode`, is only claimed for the empty map, where
  every order coincides).
* `std::set` values are duplicate-free lists built by `setInsert`.
* The module walk (`PostWalker::walkModule`) is modelled as a left-to-right
  fold of `visitCallImport` over the sequence of `CallImport` sites in
  traversal order, which is exactly what the C++ visitor performs: it
  overrides only `visitCallImport`, and each site is visited once.
-/

namespace WasmEmscripten

/-- Strings are modelled as character lists. -/
abbrev Str := List Char

/-- List-char form of a literal. -/
def str (s : String) : Str := s.data

/-- Decimal rendering of a number, as `operator<<` on an integer does. -/
def natStr (n : Nat) : Str := (Nat.repr n).data

/-- Tests that `sub` is an initial run of `s` (helper for substring search). -/
def leadsWith : Str → Str → Bool
  | [], _ => true
  | _ :: _, [] => false
  | a :: as, b :: bs => a = b && leadsWith as bs

/-- Containment test in `strstr` style: `sub` occurs contiguously inside `s`
(models `cashew::IString::hasSubstring`). -/
def containsSub (sub : Str) : Str → Bool
  | [] => leadsWith sub []
  | c :: cs => leadsWith sub (c :: cs) || containsSub sub cs

/-- Association-list lookup, first entry with the key wins
(models `std::map::find` / `count`). -/
def alookup {α β : Type} [DecidableEq α] : List (α × β) → α → Option β
  | [], _ => none
  | p :: ps, k => if p.1 = k then some p.2 else alookup ps k

/-- Models `std::set::insert`: add at the end if not already present. -/
def setInsert {α : Type} [DecidableEq α] (s : List α) (x : α) : List α :=
  if x ∈ s then s else s ++ [x]

/-- Models `sigsForCode[code].insert(sig)`: update the entry for `code`
(creating it at the end if absent) by `setInsert`ing `sig` into its set. -/
def mapSetInsert {α β : Type} [DecidableEq α] [DecidableEq β] :
    List (α × List β) → α → β → List (α × List β)
  | [], code, sig => [(code, [sig])]
  | p :: ps, code, sig =>
    if p.1 = code then (p.1, setInsert p.2 sig) :: ps
    else p :: mapSetInsert ps code sig

/-- First occurrences of a list's elements, in first-encounter order,
relative to an already-seen set (specification-side helper). -/
def dedupFSAux {α : Type} [DecidableEq α] (seen : List α) : List α → List α
  | [] => []
  | x :: xs => if x ∈ seen then dedupFSAux seen xs
               else x :: dedupFSAux (seen ++ [x]) xs

/-- Distinct elements of a list in first-encounter order. -/
def dedupFS {α : Type} [DecidableEq α] (l : List α) : List α := dedupFSAux [] l

/-- First pair kept per key, in first-encounter order of keys,
relative to an already-seen key set. -/
def firstKeyedAux {α β : Type} [DecidableEq α] (seen : List α) :
    List (α × β) → List (α × β)
  | [] => []
  | p :: ps => if p.1 ∈ seen then firstKeyedAux seen ps
               else p :: firstKeyedAux (seen ++ [p.1]) ps

/-- First pair kept per key, in first-encounter order of keys. -/
def firstKeyed {α β : Type} [DecidableEq α] (l : List (α × β)) : List (α × β) :=
  firstKeyedAux [] l

/-- Index of the first occurrence of `a` in `l` (length of `l` if absent). -/
def posOf {α : Type} [DecidableEq α] : List α → α → Nat
  | [], _ => 0
  | x :: xs, a => if x = a then 0 else posOf xs a + 1

/-- Pair every element with its index, starting at `n`. -/
def withIdx {α : Type} (n : Nat) : List α → List (Nat × α)
  | [] => []
  | x :: xs => (n, x) :: withIdx (n + 1) xs

/-- The id table holding `l`'s elements keyed to `n, n+1, ...` in order. -/
def enumIds (n : Nat) : List Str → List (Str × Nat)
  | [] => []
  | c :: cs => (c, n) :: enumIds (n + 1) cs

/-! ### The IR data model (consumed API surface of `wasm.h` / `wasm-builder.h`) -/

/-- Wasm value types used by this core (`WasmType`); `none_` is the `none`
result type of a void function. -/
inductive WasmType : Type
  | none_ | i32 | i64 | f32 | f64
  deriving DecidableEq

/-- A function type: parameter list and result
(binaryen `FunctionType`; `ensureFunctionType(sig, &wasm)` interconverts with
signature strings, see `getSigFT`). -/
structure FunctionType : Type where
  params : List WasmType
  result : WasmType
  deriving DecidableEq

/-- Signature Codec (`asm_v_wasm.h getSig(WasmType)`), a consumed API:
one character per type. -/
def sigChar : WasmType → Char
  | WasmType.i32 => 'i'
  | WasmType.i64 => 'j'
  | WasmType.f32 => 'f'
  | WasmType.f64 => 'd'
  | WasmType.none_ => 'v'

/-- Signature Codec on a whole function type: result character followed by
the parameter characters (`asm_v_wasm.h getSig(FunctionType*)`). -/
def getSigFT (ft : FunctionType) : Str :=
  sigChar ft.result :: ft.params.map sigChar

/-- Host operations; only `GrowMemory` is used here. -/
inductive HostOp : Type
  | GrowMemory
  deriving DecidableEq

/-- The expression forms this core builds (`Builder::makeGetLocal`,
`Builder::makeHost`, `Builder::makeCallIndirect`). -/
inductive Expression : Type
  | GetLocal (index : Nat) (ty : WasmType)
  | Host (op : HostOp) (nameArg : Str) (operands : List Expression)
  | CallIndirect (fullType : FunctionType) (target : Expression)
      (operands : List Expression)

/-- A function definition (`Builder::makeFunction(name, params, result, vars)`
plus the body assignment). -/
structure Function : Type where
  name : Str
  params : List (Str × WasmType)
  result : WasmType
  vars : List WasmType
  body : Expression

/-- An import record (`Import` in `wasm.h`); `functionType` holds the name of
the `FunctionType` produced by `ensureFunctionType(baseSig, &wasm)`, which is
keyed by — and so modelled as — the full signature string. -/
structure Import : Type where
  name : Str
  base : Str
  module : Str
  functionType : Str
  deriving DecidableEq

/-- Export kinds; only `Function` occurs here. -/
inductive ExternalKind : Type
  | Function | Memory
  deriving DecidableEq

/-- An export record (`Export` in `wasm.h`). -/
structure Export : Type where
  name : Str
  value : Str
  kind : ExternalKind
  deriving DecidableEq

/-- The module collections this core adds to (`Module` in `wasm.h`): its
functions, exports and imports.  Linear memory is modelled separately by
`MemEnv` since the walker only reads it through `segmentsByAddress`. -/
structure Module : Type where
  functions : List Function
  exports : List Export
  imports : List Import

/-- The memory view of the walker: the `address => segment index` map passed
in by the pipeline, and per segment the C string read at `&segment.data[0]`
(the bytes up to the terminating NUL with which the segment was populated). -/
structure MemEnv : Type where
  segmentsByAddress : List (Nat × Nat)
  segments : List Str

/-! ### Shared constants -/

/-- The intrinsic name `cashew::IString EMSCRIPTEN_ASM_CONST("emscripten_asm_const")`. -/
def EMSCRIPTEN_ASM_CONST : Str := "emscripten_asm_const".data

/-- The fixed import namespace `ENV` (shared-constants, `"env"`). -/
def ENV : Str := "env".data

/-- The fixed export name `GROW_WASM_MEMORY` (shared-constants). -/
def GROW_WASM_MEMORY : Str := "__growWasmMemory".data

/-- The parameter name `NEW_SIZE` (shared-constants). -/
def NEW_SIZE : Str := "newSize".data

/-! ### Memory-growth synthesizer (`generateMemoryGrowthFunction`) -/

/-- Models `generateMemoryGrowthFunction(Module&)`: build the grow function with one
`i32` parameter `NEW_SIZE`, result `i32`, body `makeHost(GrowMemory, Name(),
{makeGetLocal(0, i32)})`, add it, and add an export whose name and value are
both `GROW_WASM_MEMORY` with kind `Function`. -/
def generateMemoryGrowthFunction (wasm : Module) : Module :=
  let growFunction : Function :=
    { name := GROW_WASM_MEMORY
      params := [(NEW_SIZE, WasmType.i32)]
      result := WasmType.i32
      vars := []
      body := Expression.Host HostOp.GrowMemory []
        [Expression.GetLocal 0 WasmType.i32] }
  let export_ : Export :=
    { name := GROW_WASM_MEMORY, value := GROW_WASM_MEMORY
      kind := ExternalKind.Function }
  { wasm with
      functions := wasm.functions ++ [growFunction]
      exports := wasm.exports ++ [export_] }

/-! ### DynCall thunk synthesizer (`makeDynCallThunks`) -/

/-- Models `hasI64ResultOrParam(FunctionType*)`: the result is `i64` or some
parameter is `i64`. -/
def hasI64ResultOrParam (ft : FunctionType) : Bool :=
  ft.result == WasmType.i64 || ft.params.any (fun ty => ty == WasmType.i64)

/-- Models `removeImportsWithSubstring(Module&, Name)`: collect every import whose
name has `name` as a substring and remove them; the net effect on the import
list is this filter. -/
def removeImportsWithSubstring (imports : List Import) (name : Str) :
    List Import :=
  imports.filter (fun imp => ! containsSub name imp.name)

/-- The thunk parameter list: `{"fptr", i32}` then one parameter per callee
parameter type, named `std::to_string(p++)` by the counting loop. -/
def thunkParams (ft : FunctionType) : List (Str × WasmType) :=
  (ft.params.foldl
    (fun (acc : List (Str × WasmType) × Nat) ty =>
      (acc.1 ++ [(natStr acc.2, ty)], acc.2 + 1))
    ([("fptr".data, WasmType.i32)], 0)).1

/-- The thunk call arguments: `makeGetLocal(i + 1, funcType->params[i])` for
each index `i` of the callee parameter list. -/
def thunkArgs (ft : FunctionType) : List Expression :=
  (List.range ft.params.length).map
    (fun i => Expression.GetLocal (i + 1) (ft.params.getD i WasmType.none_))

/-- The loop body of `makeDynCallThunks`: walk the table entries (given by
their function types, i.e. `ensureFunctionType(getSig(getFunction(name)))`),
skipping entries with an `i64` in the signature, then entries whose signature
is already in `sigs`; otherwise build `dynCall_<sig>` whose body is an
indirect call through the table on local 0 forwarding the rest. -/
def makeDynCallThunksAux (sigs : List Str) : List FunctionType → List Function
  | [] => []
  | funcType :: rest =>
    if hasI64ResultOrParam funcType then makeDynCallThunksAux sigs rest
    else
      let sig := getSigFT funcType
      if sig ∈ sigs then makeDynCallThunksAux sigs rest
      else
        let f : Function :=
          { name := "dynCall_".data ++ sig
            params := thunkParams funcType
            result := funcType.result
            vars := []
            body := Expression.CallIndirect funcType
              (Expression.GetLocal 0 WasmType.i32) (thunkArgs funcType) }
        f :: makeDynCallThunksAux (sigs ++ [sig]) rest

/-- Models `makeDynCallThunks(Module&, tableSegmentData)`: first remove the stale
`emscripten_asm_const`-substring imports, then generate the thunks, add them
to the module and return them. -/
def makeDynCallThunks (wasm : Module) (tableSegmentData : List FunctionType) :
    Module × List Function :=
  let wasm' : Module :=
    { wasm with
        imports := removeImportsWithSubstring wasm.imports EMSCRIPTEN_ASM_CONST }
  let generatedFunctions := makeDynCallThunksAux [] tableSegmentData
  ({ wasm' with functions := wasm'.functions ++ generatedFunctions },
   generatedFunctions)

/-! ### String escaping (`AsmConstWalker::escape`)

The C++ runs two in-place rewrite loops over the string, each scanning left to
right with `find(needle, curr)` and, at each hit, replacing the needle and
resuming the scan just past the replacement (`curr += len`), so that inserted
text is never rescanned and the character inspected by `code[curr-1]` is the
character immediately preceding the hit in the current string.  That
scan-replace-resume loop is precisely a single left-to-right pass, modelled
here structurally. -/

/-- First loop of `escape`: each occurrence of the two-character sequence
backslash-`n` gains one extra backslash, scanning left to right and resuming
after the inserted text. -/
def escapeNewlines : Str → Str
  | '\x5c' :: 'n' :: rest => '\x5c' :: '\x5c' :: 'n' :: escapeNewlines rest
  | c :: rest => c :: escapeNewlines rest
  | [] => []

/-- Second loop of `escape`: each double quote is escaped; a quote whose
preceding character in the current string is a backslash (never the case at
position 0, i.e. when `prev = none`) takes the "already escaped, escape the
slash as well" branch inserting two characters.  `prev` is the character just
before the scan position. -/
def escapeQuotes (prev : Option Char) : Str → Str
  | [] => []
  | '\x22' :: rest =>
    if prev = some '\x5c' then
      '\x5c' :: '\x5c' :: '\x22' :: escapeQuotes (some '\x22') rest
    else
      '\x5c' :: '\x22' :: escapeQuotes (some '\x22') rest
  | c :: rest => c :: escapeQuotes (some c) rest

/-- Models `AsmConstWalker::escape`: the newline loop, then the quote loop. -/
def escape (input : Str) : Str :=
  escapeQuotes none (escapeNewlines input)

/-! ### Inline-host-call rewriter (`AsmConstWalker`) -/

/-- A `CallImport` site as the walker sees it: the call target name, the value
of the compile-time-constant first operand (`operands[0]->cast<Const>()`,
holding the address before the rewrite and the code id after), and
`getSig(curr)` — the call's full signature, result character first, whose
character at index 1 is the code-pointer operand's type. -/
structure CallImportSite : Type where
  target : Str
  arg0 : Nat
  baseSig : Str
  deriving DecidableEq

/-- The walker state accumulated over one walk, plus the imports the walk adds
to the module (`wasm.addImport` appends to `module.imports`; `addedImports` is
the appended suffix). -/
structure AsmConstWalker : Type where
  sigsForCode : List (Str × List Str)
  ids : List (Str × Nat)
  allSigs : List Str
  addedImports : List Import

/-- The walker's initial state. -/
def emptyWalker : AsmConstWalker := ⟨[], [], [], []⟩

/-- Models `AsmConstWalker::codeForConstAddr`: look the address up in
`segmentsByAddress`; if absent the segment was omitted and the address points
to an empty string, else escape the C string at the segment's data start. -/
def codeForConstAddr (env : MemEnv) (address : Nat) : Str :=
  match alookup env.segmentsByAddress address with
  | none => escape []
  | some segmentIndex => escape (env.segments.getD segmentIndex [])

/-- Models `AsmConstWalker::idLiteralForCode`: if `code` is new, its id is the
current table size and it is inserted; otherwise the stored id is reused.
Returns the (possibly extended) table and the id literal's value. -/
def idLiteralForCode (ids : List (Str × Nat)) (code : Str) :
    List (Str × Nat) × Nat :=
  match alookup ids code with
  | none => (ids ++ [(code, ids.length)], ids.length)
  | some id => (ids, id)

/-- Models `AsmConstWalker::asmConstSig`: copy every character of `baseSig` except
the one at index 1 (the code-pointer slot). -/
def asmConstSig (baseSig : Str) : Str :=
  (List.range baseSig.length).foldl
    (fun sig i => if i ≠ 1 then sig ++ [baseSig.getD i default] else sig) []

/-- Models `AsmConstWalker::nameForImportWithSig`:
`EMSCRIPTEN_ASM_CONST.str + "_" + sig`. -/
def nameForImportWithSig (sig : Str) : Str :=
  EMSCRIPTEN_ASM_CONST ++ "_".data ++ sig

/-- Models `AsmConstWalker::addImport`: a new import named `importName` (its `base`
too), module `ENV`, function type `ensureFunctionType(baseSig, &wasm)->name`
(keyed by the full signature), kind `Function`, appended to the module. -/
def addImport (w : AsmConstWalker) (importName : Str) (baseSig : Str) :
    AsmConstWalker :=
  { w with addedImports := w.addedImports ++
      [{ name := importName, base := importName, module := ENV
         functionType := baseSig }] }

/-- Models `AsmConstWalker::visitCallImport`: on a target containing
`EMSCRIPTEN_ASM_CONST`, resolve the code string, overwrite the constant
operand with the code id, record the reduced signature for the code, retarget
the call to `nameForImportWithSig`, and — the first time this reduced
signature is seen — register it and add the import with the original full
signature. -/
def visitCallImport (env : MemEnv) (w : AsmConstWalker)
    (curr : CallImportSite) : AsmConstWalker × CallImportSite :=
  if containsSub EMSCRIPTEN_ASM_CONST curr.target then
    let code := codeForConstAddr env curr.arg0
    let ids' := (idLiteralForCode w.ids code).1
    let idv := (idLiteralForCode w.ids code).2
    let sig := asmConstSig curr.baseSig
    let importName := nameForImportWithSig sig
    let curr' : CallImportSite :=
      { target := importName, arg0 := idv, baseSig := curr.baseSig }
    let w' : AsmConstWalker :=
      { w with ids := ids', sigsForCode := mapSetInsert w.sigsForCode code sig }
    if sig ∈ w.allSigs then (w', curr')
    else (addImport { w' with allSigs := w.allSigs ++ [sig] } importName
            curr.baseSig, curr')
  else (w, curr)

/-- Models `walker.walkModule(&wasm)`: visit every `CallImport` site in traversal
order, threading the state and collecting the (possibly rewritten) sites. -/
def walkModule (env : MemEnv) (w : AsmConstWalker) :
    List CallImportSite → AsmConstWalker × List CallImportSite
  | [] => (w, [])
  | c :: cs =>
    let step := visitCallImport env w c
    let rest := walkModule env step.1 cs
    (rest.1, step.2 :: rest.2)

/-! ### Metadata emitter (`generateEmscriptenMetadata`)

The output sink (`std::ostream`) is modelled as the emitted byte sequence. -/

/-- Models `printSet`: a bracket, the items quoted and comma-separated via the `first`
flag, `]`. -/
def printSet (c : List Str) : Str :=
  "[".data ++
  (c.foldl
    (fun (acc : Str × Bool) item =>
      (acc.1 ++ (if acc.2 then [] else (",".data)) ++
        "\x22".data ++ item ++ "\x22".data, false))
    ([], true)).1 ++
  "]".data

/-- Models `generateEmscriptenMetadata`: run the walker over the module's intrinsic
call sites, then print the `asmConsts` map (`walker.ids[code]` is the map
lookup, with `operator[]`'s value-initialized fallback 0 never reached), the
`staticBump`, and the initializer list, exactly as the stream statements
concatenate them. -/
def generateEmscriptenMetadata (env : MemEnv) (calls : List CallImportSite)
    (staticBump : Nat) (initializerFunctions : List Str) : Str :=
  let walker := (walkModule env emptyWalker calls).1
  let asmConstsBody :=
    (walker.sigsForCode.foldl
      (fun (acc : Str × Bool) pair =>
        (acc.1 ++ (if acc.2 then [] else (",".data)) ++
          "\x22".data ++ natStr ((alookup walker.ids pair.1).getD 0) ++
          "\x22: [\x22".data ++ pair.1 ++ "\x22, ".data ++
          printSet pair.2 ++ "]".data, false))
      ([], true)).1
  let initsBody :=
    (initializerFunctions.foldl
      (fun (acc : Str × Bool) func =>
        (acc.1 ++ (if acc.2 then [] else (", ".data)) ++
          "\x22".data ++ func ++ "\x22".data, false))
      ([], true)).1
  ";; METADATA: \x7b ".data ++
  "\x22asmConsts\x22: \x7b".data ++ asmConstsBody ++ "\x7d".data ++
  ",".data ++
  "\x22staticBump\x22: ".data ++ natStr staticBump ++ ", ".data ++
  "\x22initializers\x22: [".data ++ initsBody ++ "]".data ++
  " \x7d\n".data

/-! ### Specification-side descriptions of the walk

Closed-form descriptions, in terms of first-encounter order, of what one walk
over a sequence of intrinsic call sites produces.  These are the vocabulary of
the claims; the theorems below prove the walker realizes them. -/

/-- The trigger test of `visitCallImport`: the target contains the name of
the intrinsic import. -/
def isAsmConstCall (c : CallImportSite) : Bool :=
  containsSub EMSCRIPTEN_ASM_CONST c.target

/-- The subsequence of sites the walker acts on. -/
def matchingCalls (calls : List CallImportSite) : List CallImportSite :=
  calls.filter (fun c => isAsmConstCall c)

/-- The resolved code strings of the acted-on sites, in walk order. -/
def codesOf (env : MemEnv) (calls : List CallImportSite) : List Str :=
  (matchingCalls calls).map (fun c => codeForConstAddr env c.arg0)

/-- The reduced signatures of the acted-on sites, in walk order. -/
def sigsOf (calls : List CallImportSite) : List Str :=
  (matchingCalls calls).map (fun c => asmConstSig c.baseSig)

/-- Reduced signature paired with the originating full signature, per
acted-on site. -/
def sigPairs (calls : List CallImportSite) : List (Str × Str) :=
  (matchingCalls calls).map (fun c => (asmConstSig c.baseSig, c.baseSig))

/-- The reduced signatures observed at the sites resolving to `code`,
in walk order, duplicates included. -/
def sigsForCodeSpec (env : MemEnv) (calls : List CallImportSite)
    (code : Str) : List Str :=
  (matchingCalls calls).filterMap
    (fun c => if codeForConstAddr env c.arg0 = code then
                some (asmConstSig c.baseSig) else none)

/-- The import registered for a (reduced signature, full signature) pair:
named from the reduced signature, typed by the full one, under `ENV`. -/
def importFor (p : Str × Str) : Import :=
  { name := nameForImportWithSig p.1
    base := nameForImportWithSig p.1
    module := ENV
    functionType := p.2 }

/-- Closed form of the walker state after processing `calls`: ids are
`0, 1, ...` over the distinct codes in first-encounter order; each code's
signature set holds its distinct reduced signatures in first-encounter order;
one import per distinct reduced signature, typed by the full signature of the
first site that produced it. -/
def mkWalker (env : MemEnv) (calls : List CallImportSite) : AsmConstWalker :=
  { sigsForCode := (dedupFS (codesOf env calls)).map
      (fun code => (code, dedupFS (sigsForCodeSpec env calls code)))
    ids := enumIds 0 (dedupFS (codesOf env calls))
    allSigs := dedupFS (sigsOf calls)
    addedImports := (firstKeyed (sigPairs calls)).map importFor }

/-- Closed form of the rewrite of one site within a walk of `calls`: an
acted-on site is retargeted to the signature-specific import name and its
constant operand becomes the index of its code's first encounter among the
distinct codes; other sites are untouched. -/
def rewriteSpec (env : MemEnv) (calls : List CallImportSite)
    (c : CallImportSite) : CallImportSite :=
  if isAsmConstCall c then
    { target := nameForImportWithSig (asmConstSig c.baseSig)
      arg0 := posOf (dedupFS (codesOf env calls)) (codeForConstAddr env c.arg0)
      baseSig := c.baseSig }
  else c

/-! ### Concrete fixtures used by examples, witnesses and counterexamples -/

/-- An empty memory view: no segment covers any address. -/
def env0 : MemEnv := ⟨[], []⟩

/-- An empty module. -/
def m0 : Module := ⟨[], [], []⟩

/-- Memory with the string `x` in segment 0 at address 100. -/
def envx : MemEnv := ⟨[(100, 0)], ["x".data]⟩

/-- Intrinsic call site at address 100 with full signature `ii`
(reduced signature `i`). -/
def cx1 : CallImportSite := ⟨EMSCRIPTEN_ASM_CONST, 100, "ii".data⟩

/-- Intrinsic call site at address 100 with full signature `vi`
(reduced signature `v`). -/
def cx2 : CallImportSite := ⟨EMSCRIPTEN_ASM_CONST, 100, "vi".data⟩

/-- Intrinsic call site at an address no segment covers. -/
def cMiss : CallImportSite := ⟨EMSCRIPTEN_ASM_CONST, 7, "vii".data⟩

/-- Table-entry type of signature `ii`. -/
def ftii : FunctionType := ⟨[WasmType.i32], WasmType.i32⟩

/-- Table-entry type of signature `v`. -/
def ftv : FunctionType := ⟨[], WasmType.none_⟩

/-- Table-entry type of signature `ij` (an `i64` parameter; the claim writes
this signature `iJ`, `J` denoting the 64-bit integer type). -/
def ftij : FunctionType := ⟨[WasmType.i64], WasmType.i32⟩

/-- The thunk `makeDynCallThunks` builds for the table type `ii`. -/
def thunkII : Function :=
  { name := "dynCall_ii".data
    params := [("fptr".data, WasmType.i32), ("0".data, WasmType.i32)]
    result := WasmType.i32
    vars := []
    body := Expression.CallIndirect ftii (Expression.GetLocal 0 WasmType.i32)
      [Expression.GetLocal 1 WasmType.i32] }

/-- The escape sample of the spec: one already-escaped quote, then `a`, then
one unescaped quote (`\"a"`). -/
def escSample : Str := ['\x5c', '\x22', 'a', '\x22']

/-! ## Lemmas about the list utilities -/

theorem mem_dedupFSAux {α : Type} [DecidableEq α] (a : α) (l : List α) :
    ∀ seen : List α, a ∈ dedupFSAux seen l ↔ a ∈ l ∧ a ∉ seen := by
  induction l with
  | nil => intro seen; simp [dedupFSAux]
  | cons x xs ih =>
    intro seen
    by_cases hx : x ∈ seen
    · rw [dedupFSAux, if_pos hx, ih seen]
      constructor
      · exact fun h => ⟨List.mem_cons_of_mem _ h.1, h.2⟩
      · rintro ⟨h1, h2⟩
        rcases List.mem_cons.mp h1 with h | h
        · exact absurd (h ▸ hx) h2
        · exact ⟨h, h2⟩
    · rw [dedupFSAux, if_neg hx]
      by_cases hax : a = x
      · subst hax; simp [hx]
      · rw [List.mem_cons, or_iff_right hax, ih (seen ++ [x])]
        simp only [List.mem_append, List.mem_singleton, List.mem_cons]
        tauto

theorem mem_dedupFS {α : Type} [DecidableEq α] (a : α) (l : List α) :
    a ∈ dedupFS l ↔ a ∈ l := by
  simp [dedupFS, mem_dedupFSAux]

theorem nodup_dedupFSAux {α : Type} [DecidableEq α] (l : List α) :
    ∀ seen : List α, (dedupFSAux seen l).Nodup := by
  induction l with
  | nil => intro seen; simp [dedupFSAux]
  | cons x xs ih =>
    intro seen
    by_cases hx : x ∈ seen
    · rw [dedupFSAux, if_pos hx]; exact ih seen
    · rw [dedupFSAux, if_neg hx]
      refine List.nodup_cons.mpr ⟨fun hmem => ?_, ih (seen ++ [x])⟩
      exact ((mem_dedupFSAux x xs (seen ++ [x])).mp hmem).2 (by simp)

theorem nodup_dedupFS {α : Type} [DecidableEq α] (l : List α) :
    (dedupFS l).Nodup := nodup_dedupFSAux l []

theorem dedupFSAux_append_one {α : Type} [DecidableEq α] (a : α) (l : List α) :
    ∀ seen : List α, dedupFSAux seen (l ++ [a]) =
      dedupFSAux seen l ++ (if a ∈ seen ∨ a ∈ l then [] else [a]) := by
  induction l with
  | nil =>
    intro seen
    by_cases h : a ∈ seen <;> simp [dedupFSAux, h]
  | cons x xs ih =>
    intro seen
    by_cases hx : x ∈ seen
    · rw [List.cons_append, dedupFSAux, if_pos hx, dedupFSAux, if_pos hx, ih seen]
      congr 1
      apply if_congr _ rfl rfl
      by_cases hax : a = x
      · subst hax; simp [hx]
      · simp [List.mem_cons, hax]
    · rw [List.cons_append, dedupFSAux, if_neg hx, dedupFSAux, if_neg hx,
        ih (seen ++ [x]), List.cons_append]
      congr 2
      apply if_congr _ rfl rfl
      simp only [List.mem_append, List.mem_singleton, List.mem_cons]
      tauto

theorem dedupFS_append_one {α : Type} [DecidableEq α] (a : α) (l : List α) :
    dedupFS (l ++ [a]) = dedupFS l ++ (if a ∈ l then [] else [a]) := by
  have h := dedupFSAux_append_one a l []
  simpa [dedupFS] using h

theorem dedupFS_append_extends {α : Type} [DecidableEq α] (t : List α) :
    ∀ l : List α, ∃ t', dedupFS (l ++ t) = dedupFS l ++ t' := by
  induction t with
  | nil => intro l; exact ⟨[], by simp⟩
  | cons y ys ih =>
    intro l
    obtain ⟨t', ht⟩ := ih (l ++ [y])
    refine ⟨(if y ∈ l then [] else [y]) ++ t', ?_⟩
    rw [show l ++ y :: ys = (l ++ [y]) ++ ys by simp, ht, dedupFS_append_one]
    simp [List.append_assoc]

theorem posOf_append_left {α : Type} [DecidableEq α] (t : List α) (a : α) :
    ∀ l : List α, a ∈ l → posOf (l ++ t) a = posOf l a := by
  intro l
  induction l with
  | nil => intro h; cases h
  | cons x xs ih =>
    intro h
    by_cases hx : x = a
    · simp [posOf, hx]
    · rw [List.cons_append, posOf, if_neg hx, posOf, if_neg hx,
        ih ((List.mem_cons.mp h).resolve_left fun e => hx e.symm)]

theorem posOf_append_self {α : Type} [DecidableEq α] (a : α) :
    ∀ l : List α, a ∉ l → posOf (l ++ [a]) a = l.length := by
  intro l
  induction l with
  | nil => intro _; simp [posOf]
  | cons x xs ih =>
    intro h
    have hx : x ≠ a := fun e => h (e ▸ List.mem_cons_self x xs)
    rw [List.cons_append, posOf, if_neg hx, ih (fun hm => h (List.mem_cons_of_mem _ hm)),
      List.length_cons]

theorem enumIds_append_one (a : Str) (l : List Str) :
    ∀ n : Nat, enumIds n (l ++ [a]) = enumIds n l ++ [(a, n + l.length)] := by
  induction l with
  | nil => intro n; simp [enumIds]
  | cons c cs ih =>
    intro n
    rw [List.cons_append, enumIds, enumIds, ih (n + 1), List.cons_append,
      List.length_cons]
    have : n + 1 + cs.length = n + (cs.length + 1) := by omega
    rw [this]

theorem length_enumIds (l : List Str) : ∀ n : Nat, (enumIds n l).length = l.length := by
  induction l with
  | nil => intro n; rfl
  | cons c cs ih => intro n; simp [enumIds, ih]

theorem alookup_enumIds (c : Str) (l : List Str) :
    ∀ n : Nat, alookup (enumIds n l) c =
      if c ∈ l then some (n + posOf l c) else none := by
  induction l with
  | nil => intro n; simp [enumIds, alookup]
  | cons x xs ih =>
    intro n
    by_cases hx : x = c
    · subst hx
      simp [enumIds, alookup, posOf]
    · rw [enumIds, alookup, if_neg hx, ih (n + 1)]
      by_cases hc : c ∈ xs
      · rw [if_pos hc, if_pos (List.mem_cons_of_mem _ hc), posOf, if_neg hx]
        have : n + 1 + posOf xs c = n + (posOf xs c + 1) := by omega
        rw [this]
      · rw [if_neg hc, if_neg (fun hm => ((List.mem_cons.mp hm).elim
          (fun e => hx e.symm) hc))]

theorem alookup_map_keyed {α β : Type} [DecidableEq α] (f : α → β) (c : α) :
    ∀ l : List α, alookup (l.map (fun k => (k, f k))) c =
      if c ∈ l then some (f c) else none := by
  intro l
  induction l with
  | nil => simp [alookup]
  | cons x xs ih =>
    by_cases hx : x = c
    · subst hx; simp [alookup]
    · rw [List.map_cons, alookup, if_neg hx, ih]
      by_cases hc : c ∈ xs
      · rw [if_pos hc, if_pos (List.mem_cons_of_mem _ hc)]
      · rw [if_neg hc, if_neg (fun hm => ((List.mem_cons.mp hm).elim
          (fun e => hx e.symm) hc))]

theorem mapSetInsert_map_keyed {α β : Type} [DecidableEq α] [DecidableEq β]
    (f : α → List β) (code : α) (sig : β) :
    ∀ l : List α, l.Nodup →
      mapSetInsert (l.map (fun k => (k, f k))) code sig =
        if code ∈ l then
          l.map (fun k => (k, if k = code then setInsert (f k) sig else f k))
        else l.map (fun k => (k, f k)) ++ [(code, [sig])] := by
  intro l
  induction l with
  | nil => intro _; simp [mapSetInsert]
  | cons x xs ih =>
    intro hnd
    obtain ⟨hx, hnd'⟩ := List.nodup_cons.mp hnd
    by_cases hxc : x = code
    · subst hxc
      rw [List.map_cons, mapSetInsert, if_pos rfl, if_pos (List.mem_cons_self x xs),
        List.map_cons, if_pos rfl]
      congr 1
      refine (List.map_congr_left fun k hk => ?_).symm
      rw [if_neg (show ¬k = x from fun e => hx (e ▸ hk))]
    · rw [List.map_cons, mapSetInsert, if_neg hxc, ih hnd']
      by_cases hc : code ∈ xs
      · rw [if_pos hc, if_pos (List.mem_cons_of_mem _ hc), List.map_cons, if_neg hxc]
      · rw [if_neg hc, if_neg (fun hm => ((List.mem_cons.mp hm).elim
          (fun e => hxc e.symm) hc))]
        simp

theorem firstKeyedAux_append_one {α β : Type} [DecidableEq α] (p : α × β)
    (l : List (α × β)) :
    ∀ seen : List α, firstKeyedAux seen (l ++ [p]) =
      firstKeyedAux seen l ++
        (if p.1 ∈ seen ∨ p.1 ∈ l.map Prod.fst then [] else [p]) := by
  induction l with
  | nil =>
    intro seen
    by_cases h : p.1 ∈ seen <;> simp [firstKeyedAux, h]
  | cons q qs ih =>
    intro seen
    by_cases hq : q.1 ∈ seen
    · rw [List.cons_append, firstKeyedAux, if_pos hq, firstKeyedAux, if_pos hq,
        ih seen]
      congr 1
      apply if_congr _ rfl rfl
      simp only [List.map_cons, List.mem_cons]
      constructor
      · rintro (h | h)
        · exact Or.inl h
        · exact Or.inr (Or.inr h)
      · rintro (h | h | h)
        · exact Or.inl h
        · exact Or.inl (show p.1 ∈ seen from h ▸ hq)
        · exact Or.inr h
    · rw [List.cons_append, firstKeyedAux, if_neg hq, firstKeyedAux, if_neg hq,
        ih (seen ++ [q.1]), List.cons_append]
      congr 2
      apply if_congr _ rfl rfl
      simp only [List.mem_append, List.mem_singleton, List.map_cons, List.mem_cons]
      tauto

theorem firstKeyed_append_one {α β : Type} [DecidableEq α] (p : α × β)
    (l : List (α × β)) :
    firstKeyed (l ++ [p]) =
      firstKeyed l ++ (if p.1 ∈ l.map Prod.fst then [] else [p]) := by
  have h := firstKeyedAux_append_one p l []
  rw [firstKeyed, firstKeyed, h]
  congr 1
  apply if_congr _ rfl rfl
  simp

theorem dedupFS_append_one_setInsert {α : Type} [DecidableEq α] (a : α)
    (l : List α) : dedupFS (l ++ [a]) = setInsert (dedupFS l) a := by
  rw [dedupFS_append_one, setInsert]
  by_cases h : a ∈ l
  · rw [if_pos h, if_pos ((mem_dedupFS a l).mpr h), List.append_nil]
  · rw [if_neg h, if_neg (fun hm => h ((mem_dedupFS a l).mp hm))]

/-! ## Lemmas about the walk's specification-side functions -/

theorem matchingCalls_append (l l' : List CallImportSite) :
    matchingCalls (l ++ l') = matchingCalls l ++ matchingCalls l' := by
  simp [matchingCalls]

theorem codesOf_append (env : MemEnv) (l l' : List CallImportSite) :
    codesOf env (l ++ l') = codesOf env l ++ codesOf env l' := by
  simp [codesOf, matchingCalls_append]

theorem sigsOf_append (l l' : List CallImportSite) :
    sigsOf (l ++ l') = sigsOf l ++ sigsOf l' := by
  simp [sigsOf, matchingCalls_append]

theorem sigPairs_append (l l' : List CallImportSite) :
    sigPairs (l ++ l') = sigPairs l ++ sigPairs l' := by
  simp [sigPairs, matchingCalls_append]

theorem sigsForCodeSpec_append (env : MemEnv) (l l' : List CallImportSite)
    (code : Str) :
    sigsForCodeSpec env (l ++ l') code =
      sigsForCodeSpec env l code ++ sigsForCodeSpec env l' code := by
  simp [sigsForCodeSpec, matchingCalls_append]

theorem sigPairs_fst (calls : List CallImportSite) :
    (sigPairs calls).map Prod.fst = sigsOf calls := by
  simp [sigPairs, sigsOf, List.map_map]

theorem sigsForCodeSpec_nil_of_not_mem (env : MemEnv)
    (calls : List CallImportSite) (code : Str)
    (h : code ∉ codesOf env calls) : sigsForCodeSpec env calls code = [] := by
  rw [sigsForCodeSpec, List.filterMap_eq_nil_iff]
  intro c hc
  rw [if_neg]
  intro he
  exact h (List.mem_map.mpr ⟨c, hc, he⟩)

theorem idLiteralForCode_enumIds (codes : List Str) (code : Str) :
    idLiteralForCode (enumIds 0 (dedupFS codes)) code =
      (enumIds 0 (dedupFS (codes ++ [code])),
       posOf (dedupFS (codes ++ [code])) code) := by
  by_cases hc : code ∈ dedupFS codes
  · have h1 : alookup (enumIds 0 (dedupFS codes)) code =
        some (0 + posOf (dedupFS codes) code) := by
      rw [alookup_enumIds, if_pos hc]
    have h2 : dedupFS (codes ++ [code]) = dedupFS codes := by
      rw [dedupFS_append_one, if_pos ((mem_dedupFS code codes).mp hc),
        List.append_nil]
    unfold idLiteralForCode
    rw [h1, h2]
    simp
  · have h1 : alookup (enumIds 0 (dedupFS codes)) code = none := by
      rw [alookup_enumIds, if_neg hc]
    have h2 : dedupFS (codes ++ [code]) = dedupFS codes ++ [code] := by
      rw [dedupFS_append_one, if_neg (fun hm => hc ((mem_dedupFS code codes).mpr hm))]
    unfold idLiteralForCode
    rw [h1, h2, enumIds_append_one, length_enumIds, posOf_append_self code _ hc]
    simp

theorem matchingCalls_one_pos (c : CallImportSite) (h : isAsmConstCall c = true) :
    matchingCalls [c] = [c] := by
  simp [matchingCalls, h]

theorem matchingCalls_one_neg (c : CallImportSite) (h : isAsmConstCall c = false) :
    matchingCalls [c] = [] := by
  simp [matchingCalls, h]

theorem mkWalker_append_nonmatching (env : MemEnv) (done : List CallImportSite)
    (c : CallImportSite) (hm : isAsmConstCall c = false) :
    mkWalker env (done ++ [c]) = mkWalker env done := by
  have h1 : matchingCalls (done ++ [c]) = matchingCalls done := by
    rw [matchingCalls_append, matchingCalls_one_neg c hm, List.append_nil]
  simp only [mkWalker, codesOf, sigsOf, sigPairs, sigsForCodeSpec, h1]

theorem rewriteSpec_nonmatching (env : MemEnv) (calls : List CallImportSite)
    (c : CallImportSite) (hm : isAsmConstCall c = false) :
    rewriteSpec env calls c = c := by
  simp [rewriteSpec, hm]

theorem codesOf_append_one_pos (env : MemEnv) (done : List CallImportSite)
    (c : CallImportSite) (hm : isAsmConstCall c = true) :
    codesOf env (done ++ [c]) =
      codesOf env done ++ [codeForConstAddr env c.arg0] := by
  rw [codesOf_append]
  simp [codesOf, matchingCalls, hm]

theorem sigsOf_append_one_pos (done : List CallImportSite) (c : CallImportSite)
    (hm : isAsmConstCall c = true) :
    sigsOf (done ++ [c]) = sigsOf done ++ [asmConstSig c.baseSig] := by
  rw [sigsOf_append]
  simp [sigsOf, matchingCalls, hm]

theorem sigPairs_append_one_pos (done : List CallImportSite)
    (c : CallImportSite) (hm : isAsmConstCall c = true) :
    sigPairs (done ++ [c]) =
      sigPairs done ++ [(asmConstSig c.baseSig, c.baseSig)] := by
  rw [sigPairs_append]
  simp [sigPairs, matchingCalls, hm]

theorem sigsForCodeSpec_append_one_pos (env : MemEnv)
    (done : List CallImportSite) (c : CallImportSite) (code : Str)
    (hm : isAsmConstCall c = true) :
    sigsForCodeSpec env (done ++ [c]) code =
      sigsForCodeSpec env done code ++
        (if codeForConstAddr env c.arg0 = code then [asmConstSig c.baseSig]
         else []) := by
  rw [sigsForCodeSpec_append]
  simp only [sigsForCodeSpec, matchingCalls, List.filter_cons, List.filter_nil, hm,
    if_true, List.filterMap_cons, List.filterMap_nil]
  by_cases h : codeForConstAddr env c.arg0 = code
  · rw [if_pos h, if_pos h]
  · rw [if_neg h, if_neg h]

theorem sigsMap_step (env : MemEnv) (done : List CallImportSite)
    (c : CallImportSite) (hm : isAsmConstCall c = true) :
    mapSetInsert
      ((dedupFS (codesOf env done)).map
        (fun cd => (cd, dedupFS (sigsForCodeSpec env done cd))))
      (codeForConstAddr env c.arg0) (asmConstSig c.baseSig) =
    (dedupFS (codesOf env (done ++ [c]))).map
      (fun cd => (cd, dedupFS (sigsForCodeSpec env (done ++ [c]) cd))) := by
  rw [mapSetInsert_map_keyed _ (codeForConstAddr env c.arg0)
    (asmConstSig c.baseSig) _ (nodup_dedupFS _)]
  by_cases hc : codeForConstAddr env c.arg0 ∈ dedupFS (codesOf env done)
  · rw [if_pos hc]
    have hD : dedupFS (codesOf env (done ++ [c])) = dedupFS (codesOf env done) := by
      rw [codesOf_append_one_pos env done c hm, dedupFS_append_one,
        if_pos ((mem_dedupFS _ _).mp hc), List.append_nil]
    rw [hD]
    apply List.map_congr_left
    intro cd hcd
    by_cases hcdc : cd = codeForConstAddr env c.arg0
    · rw [if_pos hcdc, sigsForCodeSpec_append_one_pos env done c cd hm,
        if_pos hcdc.symm, hcdc, dedupFS_append_one_setInsert]
    · rw [if_neg hcdc, sigsForCodeSpec_append_one_pos env done c cd hm,
        if_neg (fun e => hcdc e.symm), List.append_nil]
  · rw [if_neg hc]
    have hcodes' : codeForConstAddr env c.arg0 ∉ codesOf env done :=
      fun hmem => hc ((mem_dedupFS _ _).mpr hmem)
    have hD : dedupFS (codesOf env (done ++ [c])) =
        dedupFS (codesOf env done) ++ [codeForConstAddr env c.arg0] := by
      rw [codesOf_append_one_pos env done c hm, dedupFS_append_one, if_neg hcodes']
    rw [hD, List.map_append]
    congr 1
    · apply List.map_congr_left
      intro cd hcd
      have hne : codeForConstAddr env c.arg0 ≠ cd :=
        fun e => hc (by rw [e]; exact hcd)
      rw [sigsForCodeSpec_append_one_pos env done c cd hm, if_neg hne,
        List.append_nil]
    · rw [List.map_singleton, sigsForCodeSpec_append_one_pos env done c _ hm,
        if_pos rfl, sigsForCodeSpec_nil_of_not_mem env done _ hcodes']
      simp [dedupFS, dedupFSAux]

theorem visit_step (env : MemEnv) (done : List CallImportSite)
    (c : CallImportSite) :
    visitCallImport env (mkWalker env done) c =
      (mkWalker env (done ++ [c]), rewriteSpec env (done ++ [c]) c) := by
  by_cases hm : isAsmConstCall c = true
  · have hcond : containsSub EMSCRIPTEN_ASM_CONST c.target = true := hm
    have hid := idLiteralForCode_enumIds (codesOf env done)
      (codeForConstAddr env c.arg0)
    have hids1 : (idLiteralForCode (enumIds 0 (dedupFS (codesOf env done)))
        (codeForConstAddr env c.arg0)).1 =
        enumIds 0 (dedupFS (codesOf env (done ++ [c]))) := by
      rw [hid, codesOf_append_one_pos env done c hm]
    have hids2 : (idLiteralForCode (enumIds 0 (dedupFS (codesOf env done)))
        (codeForConstAddr env c.arg0)).2 =
        posOf (dedupFS (codesOf env (done ++ [c]))) (codeForConstAddr env c.arg0) := by
      rw [hid, codesOf_append_one_pos env done c hm]
    have hmap := sigsMap_step env done c hm
    have hrew : rewriteSpec env (done ++ [c]) c =
        CallImportSite.mk (nameForImportWithSig (asmConstSig c.baseSig))
          (posOf (dedupFS (codesOf env (done ++ [c]))) (codeForConstAddr env c.arg0))
          c.baseSig := by
      rw [rewriteSpec, if_pos hm]
    by_cases hsig : asmConstSig c.baseSig ∈ dedupFS (sigsOf done)
    · have hsig' : asmConstSig c.baseSig ∈ sigsOf done := (mem_dedupFS _ _).mp hsig
      have hAll : dedupFS (sigsOf (done ++ [c])) = dedupFS (sigsOf done) := by
        rw [sigsOf_append_one_pos done c hm, dedupFS_append_one, if_pos hsig',
          List.append_nil]
      have hImp : (firstKeyed (sigPairs (done ++ [c]))).map importFor =
          (firstKeyed (sigPairs done)).map importFor := by
        rw [sigPairs_append_one_pos done c hm, firstKeyed_append_one, sigPairs_fst]
        rw [if_pos hsig']
        simp
      simp only [visitCallImport, hcond, if_true, mkWalker, hsig, hids1, hids2,
        hmap, hAll, hImp, hrew]
    · have hsig' : asmConstSig c.baseSig ∉ sigsOf done :=
        fun hmem => hsig ((mem_dedupFS _ _).mpr hmem)
      have hAll : dedupFS (sigsOf (done ++ [c])) =
          dedupFS (sigsOf done) ++ [asmConstSig c.baseSig] := by
        rw [sigsOf_append_one_pos done c hm, dedupFS_append_one, if_neg hsig']
      have hImp : (firstKeyed (sigPairs (done ++ [c]))).map importFor =
          (firstKeyed (sigPairs done)).map importFor ++
            [importFor (asmConstSig c.baseSig, c.baseSig)] := by
        rw [sigPairs_append_one_pos done c hm, firstKeyed_append_one, sigPairs_fst]
        rw [if_neg hsig']
        simp
      simp only [visitCallImport, hcond, if_true, mkWalker, hsig, hids1, hids2,
        hmap, hAll, hImp, hrew, addImport, importFor, if_false]
  · have hm' : isAsmConstCall c = false := by
      revert hm; cases isAsmConstCall c <;> simp
    have hcond : ¬ containsSub EMSCRIPTEN_ASM_CONST c.target = true := hm
    simp only [visitCallImport]
    rw [if_neg hcond, mkWalker_append_nonmatching env done c hm',
      rewriteSpec_nonmatching env _ c hm']

theorem rewriteSpec_extend (env : MemEnv) (done rest : List CallImportSite)
    (c : CallImportSite) (hm : c ∈ done) :
    rewriteSpec env done c = rewriteSpec env (done ++ rest) c := by
  by_cases h : isAsmConstCall c = true
  · rw [rewriteSpec, rewriteSpec, if_pos h, if_pos h]
    have hcode : codeForConstAddr env c.arg0 ∈ dedupFS (codesOf env done) := by
      rw [mem_dedupFS]
      exact List.mem_map.mpr ⟨c, List.mem_filter.mpr ⟨hm, h⟩, rfl⟩
    obtain ⟨t', ht⟩ := dedupFS_append_extends (codesOf env rest) (codesOf env done)
    rw [codesOf_append, ht]
    rw [(show ∀ l t a, a ∈ l → posOf (l ++ t) a = posOf l a from
      fun l t a h => posOf_append_left t a l h) _ t' _ hcode]
  · have h' : isAsmConstCall c = false := by
      revert h; cases isAsmConstCall c <;> simp
    rw [rewriteSpec_nonmatching env _ c h', rewriteSpec_nonmatching env _ c h']

theorem mkWalker_nil (env : MemEnv) : mkWalker env [] = emptyWalker := by
  simp [mkWalker, emptyWalker, codesOf, sigsOf, sigPairs, matchingCalls,
    dedupFS, dedupFSAux, enumIds, firstKeyed, firstKeyedAux]

theorem walkModule_spec (env : MemEnv) :
    ∀ (calls done : List CallImportSite),
      walkModule env (mkWalker env done) calls =
        (mkWalker env (done ++ calls),
         calls.map (rewriteSpec env (done ++ calls))) := by
  intro calls
  induction calls with
  | nil => intro done; simp [walkModule]
  | cons c cs ih =>
    intro done
    have hassoc : (done ++ [c]) ++ cs = done ++ c :: cs := by simp
    rw [walkModule, visit_step env done c, ih (done ++ [c]), hassoc]
    rw [List.map_cons]
    rw [show rewriteSpec env (done ++ [c]) c = rewriteSpec env (done ++ c :: cs) c by
      rw [← hassoc]
      exact rewriteSpec_extend env (done ++ [c]) cs c (by simp)]

/-! ## Lemmas about the thunk builders and the reduced signature -/

theorem withIdx_map_snd {α : Type} (l : List α) :
    ∀ n : Nat, (withIdx n l).map (fun p => p.2) = l := by
  induction l with
  | nil => intro n; rfl
  | cons x xs ih => intro n; simp [withIdx, ih]

theorem thunkParams_foldl (l : List WasmType) :
    ∀ (acc : List (Str × WasmType)) (n : Nat),
      l.foldl (fun (ac : List (Str × WasmType) × Nat) ty =>
          (ac.1 ++ [(natStr ac.2, ty)], ac.2 + 1)) (acc, n) =
        (acc ++ (withIdx n l).map (fun p => (natStr p.1, p.2)), n + l.length) := by
  induction l with
  | nil => intro acc n; simp [withIdx]
  | cons ty tys ih =>
    intro acc n
    rw [List.foldl_cons, ih (acc ++ [(natStr n, ty)]) (n + 1)]
    rw [Prod.ext_iff]
    constructor
    · simp [withIdx]
    · simp; omega

theorem thunkParams_eq (ft : FunctionType) :
    thunkParams ft = ("fptr".data, WasmType.i32) ::
      (withIdx 0 ft.params).map (fun p => (natStr p.1, p.2)) := by
  rw [thunkParams, thunkParams_foldl]
  simp

theorem range_map_getD {α β : Type} (d : α) (G : Nat → α → β) :
    ∀ (l : List α) (n : Nat),
      (List.range l.length).map (fun i => G (n + i) (l.getD i d)) =
        (withIdx n l).map (fun p => G p.1 p.2) := by
  intro l
  induction l with
  | nil => intro n; simp [withIdx]
  | cons x xs ih =>
    intro n
    rw [List.length_cons, List.range_succ_eq_map, List.map_cons, List.map_map,
      withIdx, List.map_cons]
    congr 1
    rw [← ih (n + 1)]
    apply List.map_congr_left
    intro i hi
    show G (n + (i + 1)) ((x :: xs).getD (i + 1) d) = G (n + 1 + i) (xs.getD i d)
    rw [List.getD_cons_succ]
    congr 1
    omega

theorem thunkArgs_eq (ft : FunctionType) :
    thunkArgs ft = (withIdx 0 ft.params).map
      (fun p => Expression.GetLocal (p.1 + 1) p.2) := by
  rw [thunkArgs,
    ← range_map_getD WasmType.none_ (fun k ty => Expression.GetLocal (k + 1) ty)
      ft.params 0]
  apply List.map_congr_left
  intro i hi
  simp

theorem map_getD_range {α : Type} (l : List α) (d : α) :
    (List.range l.length).map (fun i => l.getD i d) = l := by
  have h := range_map_getD d (fun k x => x) l 0
  simp only at h
  rw [h, withIdx_map_snd]

theorem makeDynCallThunksAux_names :
    ∀ (table : List FunctionType) (sigs : List Str),
      (makeDynCallThunksAux sigs table).map (fun f => f.name) =
        (dedupFSAux sigs
          ((table.filter (fun ft => ! hasI64ResultOrParam ft)).map getSigFT)).map
          (fun sig => "dynCall_".data ++ sig) := by
  intro table
  induction table with
  | nil => intro sigs; simp [makeDynCallThunksAux, dedupFSAux]
  | cons ft rest ih =>
    intro sigs
    by_cases h64 : hasI64ResultOrParam ft = true
    · rw [List.filter_cons_of_neg (by simp [h64])]
      simp only [makeDynCallThunksAux, h64, if_true]
      exact ih sigs
    · rw [List.filter_cons_of_pos (by simp [h64]), List.map_cons]
      by_cases hs : getSigFT ft ∈ sigs
      · simp [makeDynCallThunksAux, h64, hs, dedupFSAux, ih]
      · simp [makeDynCallThunksAux, h64, hs, dedupFSAux, ih]

theorem makeDynCallThunksAux_mem :
    ∀ (table : List FunctionType) (sigs : List Str) (f : Function),
      f ∈ makeDynCallThunksAux sigs table →
        ∃ ft, ft ∈ table ∧ hasI64ResultOrParam ft = false ∧
          f = { name := "dynCall_".data ++ getSigFT ft
                params := thunkParams ft
                result := ft.result
                vars := []
                body := Expression.CallIndirect ft
                  (Expression.GetLocal 0 WasmType.i32) (thunkArgs ft) } := by
  intro table
  induction table with
  | nil => intro sigs f hf; simp [makeDynCallThunksAux] at hf
  | cons ft rest ih =>
    intro sigs f hf
    by_cases h64 : hasI64ResultOrParam ft = true
    · rw [show makeDynCallThunksAux sigs (ft :: rest) =
          makeDynCallThunksAux sigs rest by
        simp [makeDynCallThunksAux, h64]] at hf
      obtain ⟨ft', h1, h2, h3⟩ := ih sigs f hf
      exact ⟨ft', List.mem_cons_of_mem _ h1, h2, h3⟩
    · have h64' : hasI64ResultOrParam ft = false := by
        revert h64; cases hasI64ResultOrParam ft <;> simp
      by_cases hs : getSigFT ft ∈ sigs
      · rw [show makeDynCallThunksAux sigs (ft :: rest) =
            makeDynCallThunksAux sigs rest by
          simp [makeDynCallThunksAux, h64, hs]] at hf
        obtain ⟨ft', h1, h2, h3⟩ := ih sigs f hf
        exact ⟨ft', List.mem_cons_of_mem _ h1, h2, h3⟩
      · rw [show makeDynCallThunksAux sigs (ft :: rest) =
            ({ name := "dynCall_".data ++ getSigFT ft
               params := thunkParams ft
               result := ft.result
               vars := []
               body := Expression.CallIndirect ft
                 (Expression.GetLocal 0 WasmType.i32) (thunkArgs ft) } :
              Function) :: makeDynCallThunksAux (sigs ++ [getSigFT ft]) rest by
          simp [makeDynCallThunksAux, h64, hs]] at hf
        rcases List.mem_cons.mp hf with h | h
        · exact ⟨ft, List.mem_cons_self ft rest, h64', h⟩
        · obtain ⟨ft', h1, h2, h3⟩ := ih (sigs ++ [getSigFT ft]) f h
          exact ⟨ft', List.mem_cons_of_mem _ h1, h2, h3⟩

theorem foldl_snoc_of_ne_one (s : Str) :
    ∀ (l : List Nat) (init : Str), (∀ i ∈ l, i ≠ 1) →
      l.foldl (fun sig i =>
          if i ≠ 1 then sig ++ [s.getD i default] else sig) init =
        init ++ l.map (fun i => s.getD i default) := by
  intro l
  induction l with
  | nil => intro init _; simp
  | cons i is ih =>
    intro init h
    rw [List.foldl_cons]
    show is.foldl _ (if i ≠ 1 then init ++ [s.getD i default] else init) = _
    rw [if_pos (h i (List.mem_cons_self i is)),
      ih _ (fun j hj => h j (List.mem_cons_of_mem _ hj)), List.map_cons,
      List.append_assoc, List.singleton_append]

theorem asmConstSig_eq (s : Str) : asmConstSig s = s.take 1 ++ s.drop 2 := by
  match s with
  | [] => rfl
  | [a] => rfl
  | a :: b :: t =>
    rw [asmConstSig,
      show (a :: b :: t).length = t.length + 2 by
        rw [List.length_cons, List.length_cons],
      List.range_succ_eq_map, List.range_succ_eq_map, List.map_cons,
      List.map_map, List.foldl_cons, List.foldl_cons]
    have h0 : ((if (0 : Nat) ≠ 1 then ([] : Str) ++ [(a :: b :: t).getD 0 default]
        else []) : Str) = [a] := by norm_num
    have h1 : ((if (1 : Nat) ≠ 1 then ([a] : Str) ++ [(a :: b :: t).getD 1 default]
        else [a]) : Str) = [a] := by norm_num
    show List.foldl _ (if (Nat.succ 0) ≠ 1 then
        (if (0 : Nat) ≠ 1 then ([] : Str) ++ [(a :: b :: t).getD 0 default] else [])
          ++ _ else _) _ = _
    rw [h0]
    rw [show ((if (Nat.succ 0) ≠ 1 then
        ([a] : Str) ++ [(a :: b :: t).getD (Nat.succ 0) default] else [a]) : Str)
        = [a] by norm_num]
    rw [foldl_snoc_of_ne_one (a :: b :: t) _ [a] (by
      intro i hi
      obtain ⟨j, _, hj⟩ := List.mem_map.mp hi
      simp only [Function.comp] at hj
      omega)]
    rw [List.map_map]
    have hmap : ((List.range t.length).map
        ((fun i => (a :: b :: t).getD i default) ∘ (Nat.succ ∘ Nat.succ))) = t := by
      rw [show ((fun i => (a :: b :: t).getD i default) ∘ (Nat.succ ∘ Nat.succ))
          = fun j => t.getD j default from funext fun j => by
        show (a :: b :: t).getD (j + 1 + 1) default = t.getD j default
        rw [List.getD_cons_succ, List.getD_cons_succ]]
      exact map_getD_range t default
    rw [hmap]
    simp

/-! ## Claim theorems -/

/-- C1: For every sequence of intrinsic call sites processed in one walk, the
Rewriter assigns code ids sequentially in first-encounter order of the
resolved code string: the final id table pairs the distinct resolved strings,
in first-encounter order, with `0, 1, ...` (`enumIds 0 (dedupFS _)`), and each
rewritten site's operand is the index of its string's first encounter among
the distinct strings (`posOf (dedupFS _)`), so a repeated occurrence reuses
its existing id and assigns no new one, however repeats are interleaved. -/
theorem walker_assigns_ids_in_first_encounter_order
    (env : MemEnv) (calls : List CallImportSite) :
    (walkModule env emptyWalker calls).1.ids =
      enumIds 0 (dedupFS (codesOf env calls)) ∧
    (walkModule env emptyWalker calls).2 =
      calls.map (rewriteSpec env calls) := by
  have h := walkModule_spec env calls []
  rw [mkWalker_nil, List.nil_append] at h
  constructor
  · rw [h]; rfl
  · rw [h]

/-- C2: Every call site whose target contains the intrinsic import name is
mutated in place — the constant first operand becomes the code's numeric id
and the target becomes the intrinsic prefix, an underscore, and the reduced
signature (`rewriteSpec`) — and over the whole walk exactly one import per
distinct reduced signature is created (`firstKeyed`), module-qualified under
`ENV`, with function type the original full signature including the
code-pointer slot, no matter how many call sites share that signature. -/
theorem walker_rewrites_calls_and_creates_import_once_per_sig
    (env : MemEnv) (calls : List CallImportSite) :
    (walkModule env emptyWalker calls).2 =
      calls.map (rewriteSpec env calls) ∧
    (walkModule env emptyWalker calls).1.addedImports =
      (firstKeyed (sigPairs calls)).map importFor := by
  have h := walkModule_spec env calls []
  rw [mkWalker_nil, List.nil_append] at h
  constructor
  · rw [h]
  · rw [h]; rfl

/-- C3: Thunk generation skips every table entry whose signature contains a
64-bit integer parameter or result and produces exactly one thunk per distinct
remaining signature, the first table occurrence winning; for table entries
with signatures `ii, ii, v, ij` (`j` the 64-bit integer type, written `J` in
the claim) it generates exactly `dynCall_ii` and `dynCall_v`, in that
order. -/
theorem dynCall_thunks_skip_i64_and_dedup_sigs :
    (∀ (wasm : Module) (table : List FunctionType),
      (makeDynCallThunks wasm table).2.map (fun f => f.name) =
        (dedupFS ((table.filter (fun ft => ! hasI64ResultOrParam ft)).map
          getSigFT)).map (fun sig => "dynCall_".data ++ sig)) ∧
    (makeDynCallThunks m0 [ftii, ftii, ftv, ftij]).2.map (fun f => f.name) =
      ["dynCall_ii".data, "dynCall_v".data] := by
  constructor
  · intro wasm table
    exact makeDynCallThunksAux_names table []
  · decide

/-- C4 (counterexample): for zero intrinsic call sites, no initializers and
staticBump 1024, the emitted bytes are not the claimed
`;; METADATA: { "asmConsts": {}, "staticBump": 1024, "initializers": [] }`
plus newline: the emitter writes no space after the comma that follows the
empty `asmConsts` object. -/
theorem metadata_empty_module_claimed_bytes_false :
    generateEmscriptenMetadata env0 [] 1024 [] ≠
      (";; METADATA: \x7b \x22asmConsts\x22: \x7b\x7d, \x22staticBump\x22: 1024, \x22initializers\x22: [] \x7d\n").data := by
  decide

/-- C4 (amended): for a module with zero intrinsic call sites, an empty
initializer list and staticBump 1024, the Metadata Emitter writes exactly
`;; METADATA: { "asmConsts": {},"staticBump": 1024, "initializers": [] }`
followed by a newline — identical to the claimed bytes except that there is no
space after the comma separating the `asmConsts` object from `staticBump`. -/
theorem metadata_empty_module_exact_bytes (env : MemEnv) :
    generateEmscriptenMetadata env [] 1024 [] =
      (";; METADATA: \x7b \x22asmConsts\x22: \x7b\x7d,\x22staticBump\x22: 1024, \x22initializers\x22: [] \x7d\n").data := by
  rfl

/-- C5: the signature set recorded for a resolved code string is exactly the
set of distinct reduced signatures observed at the sites resolving to it
(duplicates collapse, `dedupFS`), and two sites resolving to the same string
`x` with reduced signatures `i` and `v` share a single id 0 while both
signatures appear in the string's set. -/
theorem sigsForCode_collects_distinct_reduced_sigs :
    (∀ (env : MemEnv) (calls : List CallImportSite) (code : Str),
      alookup (walkModule env emptyWalker calls).1.sigsForCode code =
        if code ∈ codesOf env calls then
          some (dedupFS (sigsForCodeSpec env calls code)) else none) ∧
    (walkModule envx emptyWalker [cx1, cx2]).1.sigsForCode =
      [("x".data, ["i".data, "v".data])] ∧
    (walkModule envx emptyWalker [cx1, cx2]).1.ids = [("x".data, 0)] := by
  refine ⟨?_, by decide, by decide⟩
  intro env calls code
  have h := walkModule_spec env calls []
  rw [mkWalker_nil, List.nil_append] at h
  rw [h]
  show alookup ((dedupFS (codesOf env calls)).map
    (fun cd => (cd, dedupFS (sigsForCodeSpec env calls cd)))) code = _
  rw [alookup_map_keyed]
  by_cases hc : code ∈ codesOf env calls
  · rw [if_pos ((mem_dedupFS code _).mpr hc), if_pos hc]
  · rw [if_neg (fun hm => hc ((mem_dedupFS code _).mp hm)), if_neg hc]

/-- C6 (counterexample): the escape function is not idempotent on
already-escaped double quotes: on the sample `\"a"` (one already-escaped
quote, one unescaped quote) the first escape yields `\\\"a\"`, and re-applying
escape changes that output — in particular it changes its first four
characters, precisely the portion holding the already-escaped quote. -/
theorem escape_not_idempotent_on_escaped_quote :
    escape escSample = ['\x5c', '\x5c', '\x5c', '\x22', 'a', '\x5c', '\x22'] ∧
    escape (escape escSample) ≠ escape escSample ∧
    (escape (escape escSample)).take 4 ≠ (escape escSample).take 4 := by
  refine ⟨by decide, by decide, by decide⟩

/-- C6 (amended): on a string in which a double quote is preceded by a
backslash, escape takes the deliberate "already escaped, escape the slash as
well" branch: the preceding backslash is itself re-escaped, backslash-quote
becoming backslash-backslash-backslash-quote, while the rest of the content is
processed normally (an unescaped quote still gains one backslash, other
characters pass through); re-applying escape to the sample's escaped output
`\\\"a\"` therefore yields `\\\\\"a\\\"` instead of leaving the
escaped-quote portion unchanged. -/
theorem escape_reescapes_backslash_before_escaped_quote :
    escape (escape escSample) =
      ['\x5c', '\x5c', '\x5c', '\x5c', '\x5c', '\x22', 'a',
       '\x5c', '\x5c', '\x5c', '\x22'] ∧
    (∀ t : Str, escape ('\x5c' :: '\x22' :: t) =
      '\x5c' :: '\x5c' :: '\x5c' :: '\x22' ::
        escapeQuotes (some '\x22') (escapeNewlines t)) := by
  refine ⟨by decide, fun t => rfl⟩

/-- C7: each generated thunk is named `dynCall_` plus the signature, its first
parameter is the 32-bit function-pointer value `fptr`, its remaining
parameters mirror the callee signature's parameter types in order (named
`0, 1, ...`), its result is the callee result, and its body is a single
indirect call through the table using parameter 0 as the pointer and
forwarding parameters `1..n` in order. -/
theorem dynCall_thunk_shape (wasm : Module) (table : List FunctionType)
    (f : Function) (hf : f ∈ (makeDynCallThunks wasm table).2) :
    ∃ ft, ft ∈ table ∧ hasI64ResultOrParam ft = false ∧
      f.name = "dynCall_".data ++ getSigFT ft ∧
      f.params = ("fptr".data, WasmType.i32) ::
        (withIdx 0 ft.params).map (fun p => (natStr p.1, p.2)) ∧
      f.result = ft.result ∧
      f.body = Expression.CallIndirect ft (Expression.GetLocal 0 WasmType.i32)
        ((withIdx 0 ft.params).map
          (fun p => Expression.GetLocal (p.1 + 1) p.2)) := by
  obtain ⟨ft, h1, h2, h3⟩ := makeDynCallThunksAux_mem table [] f hf
  refine ⟨ft, h1, h2, by rw [h3], ?_, by rw [h3], ?_⟩
  · rw [h3]
    exact thunkParams_eq ft
  · rw [h3]
    show Expression.CallIndirect ft (Expression.GetLocal 0 WasmType.i32)
      (thunkArgs ft) = _
    rw [thunkArgs_eq]

/-- Witness for C7: the thunk generated for the one-entry table of type `ii`
has exactly the claimed shape. -/
theorem dynCall_thunk_shape_witness :
    ∃ ft, ft ∈ [ftii] ∧ hasI64ResultOrParam ft = false ∧
      thunkII.name = "dynCall_".data ++ getSigFT ft ∧
      thunkII.params = ("fptr".data, WasmType.i32) ::
        (withIdx 0 ft.params).map (fun p => (natStr p.1, p.2)) ∧
      thunkII.result = ft.result ∧
      thunkII.body = Expression.CallIndirect ft
        (Expression.GetLocal 0 WasmType.i32)
        ((withIdx 0 ft.params).map
          (fun p => Expression.GetLocal (p.1 + 1) p.2)) :=
  dynCall_thunk_shape m0 [ftii] thunkII (by
    rw [show (makeDynCallThunks m0 [ftii]).2 = [thunkII] from rfl]
    exact List.mem_singleton.mpr rfl)

/-- C8: a constant address covered by no entry of the address-to-segment map
resolves to the empty string without failing, and the call site is still
rewritten normally — retargeted to the signature-specific import with its
operand set to the id obtained for the empty string as code key. -/
theorem unmapped_address_yields_empty_code_and_still_rewrites
    (env : MemEnv) (w : AsmConstWalker) (curr : CallImportSite)
    (haddr : alookup env.segmentsByAddress curr.arg0 = none)
    (hm : isAsmConstCall curr = true) :
    codeForConstAddr env curr.arg0 = [] ∧
    (visitCallImport env w curr).2 =
      CallImportSite.mk (nameForImportWithSig (asmConstSig curr.baseSig))
        ((idLiteralForCode w.ids []).2) curr.baseSig := by
  have hcode : codeForConstAddr env curr.arg0 = [] := by
    rw [codeForConstAddr, haddr]
    rfl
  have hcond : containsSub EMSCRIPTEN_ASM_CONST curr.target = true := hm
  refine ⟨hcode, ?_⟩
  simp only [visitCallImport, hcond, if_true, hcode]
  by_cases hsig : asmConstSig curr.baseSig ∈ w.allSigs
  · rw [if_pos hsig]
  · rw [if_neg hsig]

/-- Witness for C8: with an empty segment map, the sample site at address 7
resolves to the empty string and is still rewritten. -/
theorem unmapped_address_witness :
    codeForConstAddr env0 cMiss.arg0 = [] ∧
    (visitCallImport env0 emptyWalker cMiss).2 =
      CallImportSite.mk (nameForImportWithSig (asmConstSig cMiss.baseSig))
        ((idLiteralForCode emptyWalker.ids []).2) cMiss.baseSig :=
  unmapped_address_yields_empty_code_and_still_rewrites env0 emptyWalker cMiss
    (by decide) (by decide)

/-- C9: one invocation of the memory-growth synthesizer appends exactly one
function — named by the fixed export name, with the single 32-bit parameter
`newSize`, 32-bit result, and a body that is a single host grow-memory call
forwarding that parameter — and exactly one export of it under the same fixed
name; imports (and everything else) are untouched. -/
theorem memory_growth_adds_single_function_and_export (wasm : Module) :
    (generateMemoryGrowthFunction wasm).functions =
      wasm.functions ++
        [{ name := GROW_WASM_MEMORY
           params := [(NEW_SIZE, WasmType.i32)]
           result := WasmType.i32
           vars := []
           body := Expression.Host HostOp.GrowMemory []
             [Expression.GetLocal 0 WasmType.i32] }] ∧
    (generateMemoryGrowthFunction wasm).exports =
      wasm.exports ++
        [{ name := GROW_WASM_MEMORY, value := GROW_WASM_MEMORY
           kind := ExternalKind.Function }] ∧
    (generateMemoryGrowthFunction wasm).imports = wasm.imports :=
  ⟨rfl, rfl, rfl⟩

/-- C10: the reduced-signature computation is total on all inputs: any string
is mapped to its first character followed by everything from index 2 on
(`take 1 ++ drop 2`), so inputs of length 0 or 1 are returned unchanged and
longer inputs lose exactly the character at index 1, all other characters
keeping their order. -/
theorem asmConstSig_total_drops_index_one (s : Str) :
    asmConstSig s = s.take 1 ++ s.drop 2 ∧
    (s.length ≤ 1 → asmConstSig s = s) := by
  refine ⟨asmConstSig_eq s, fun h => ?_⟩
  rw [asmConstSig_eq s]
  rcases s with _ | ⟨a, _ | ⟨b, t⟩⟩
  · rfl
  · rfl
  · exfalso
    simp [List.length_cons] at h

/-- Witness for C10: a length-one input passes through unchanged; a
length-three input loses exactly its index-1 character. -/
theorem asmConstSig_total_witness :
    asmConstSig ['v'] = ['v'] ∧ asmConstSig ['v', 'i', 'f'] = ['v', 'f'] :=
  ⟨(asmConstSig_total_drops_index_one ['v']).2 (by decide),
   by
     have h := (asmConstSig_total_drops_index_one ['v', 'i', 'f']).1
     simpa using h⟩

end WasmEmscripten
